import Mathlib

/-!
Shallow embedding of the duplicate/oversized-global analyzer of
`tools/win/ShowGlobals/ShowGlobals.cc` and proofs about it.

Symbol names (C++ `std::wstring`) are modelled as lists of natural
numbers (the wide-character code units).  The machine integers of the
source (`ULONGLONG`, `DWORD`, `size_t`, `int`) are modelled as `Nat`
resp. `Int`; the one place where unsigned wrap-around is observable with
realistic inputs — the `ULONGLONG` product computing `bytes_wasted`, and
the `size_t` subtraction `repeat_count - folding_count` when
`folding_count` is `-1` — is modelled explicitly.  `std::sort` (which
guarantees only a sorted permutation) is modelled by the stable,
structurally recursive `List.insertionSort`.
-/

namespace ShowGlobals

/-- Comparison of two wide strings, modelling `StringCompare`/`wcscmp`
from `ShowGlobals.cc` (lines 49-51): lexicographic on code units. -/
def StringCompare : List Nat → List Nat → Ordering
  | [], [] => .eq
  | [], _ :: _ => .lt
  | _ :: _, [] => .gt
  | a :: as, b :: bs =>
    if a < b then .lt else if b < a then .gt else StringCompare as bs

/-- One static/global symbol record (struct `SymbolData`, lines 54-62). -/
structure SymbolData where
  size : Nat
  sectionId : Nat
  offset : Nat
  name : List Nat
deriving DecidableEq, Repr

/-- `NameCompare` (lines 70-75): primary key the name, tiebreaker the
size, both ascending. -/
def NameCompare (lhs rhs : SymbolData) : Bool :=
  match StringCompare lhs.name rhs.name with
  | .lt => true
  | .gt => false
  | .eq => decide (lhs.size < rhs.size)

/-- `SizeCompare` (lines 80-84): primary key the size ascending, with the
name as tiebreaker. -/
def SizeCompare (lhs rhs : SymbolData) : Bool :=
  if lhs.size = rhs.size then decide (StringCompare lhs.name rhs.name = .lt)
  else decide (lhs.size < rhs.size)

/-- Data about one group of repeated globals (struct `RepeatData`,
lines 87-104).  `folding_count` is a C `int` and can be negative. -/
structure RepeatData where
  repeat_count : Nat
  bytes_wasted : Nat
  folding_count : Int
  name : List Nat
deriving DecidableEq, Repr

/-- `kWastageThreshold` (line 112). -/
def kWastageThreshold : Nat := 100

/-- `kBigSizeThreshold` (line 114). -/
def kBigSizeThreshold : Nat := 500

/-- Modulus of 64-bit unsigned (`ULONGLONG`/`size_t`) arithmetic. -/
def U64 : Nat := 2 ^ 64

/-- The scan condition of the duplicate loop (lines 176-177): the symbol
`s` has the same size and the same name as the run's first element `p`. -/
def sameKey (p s : SymbolData) : Bool :=
  decide (p.size = s.size) && decide (StringCompare p.name s.name = .eq)

/-- How often the loop at lines 176-181 increments `folding_count` while
scanning `run`: elements (the first one included) whose offset equals the
first element's offset, with a zero offset never counting. -/
def foldScanCount (p : SymbolData) (run : List SymbolData) : Nat :=
  run.countP fun s => decide (s.offset = p.offset) && decide (p.offset ≠ 0)

/-- The emitted `folding_count` (line 189): the scan count minus one for
the representative; `-1` when nothing matched. -/
def foldingCount (p : SymbolData) (run : List SymbolData) : Int :=
  (foldScanCount p run : Int) - 1

/-- `excess_count` (lines 190-191).  In the source this is the `size_t`
expression `show_folded_constants ? repeat_count : repeat_count -
folding_count`; when `folding_count` is `-1` the unsigned subtraction
wraps around to `repeat_count + 1`, which `Int.toNat` of the exact
difference reproduces (in-memory runs are far shorter than `2 ^ 64`). -/
def excessCount (show_folded_constants : Bool) (p : SymbolData)
    (run : List SymbolData) : Nat :=
  if show_folded_constants then run.length - 1
  else (((run.length - 1 : Nat) : Int) - foldingCount p run).toNat

/-- The `RepeatData` built for one run (lines 183-195): `repeat_count` is
the number of excess instances, `bytes_wasted` the `ULONGLONG` product
`excess_count * size`. -/
def mkRepeat (show_folded_constants : Bool) (p : SymbolData)
    (run : List SymbolData) : RepeatData :=
  ⟨run.length - 1,
   excessCount show_folded_constants p run * p.size % U64,
   foldingCount p run,
   p.name⟩

/-- Emission decision for one run (lines 185-196): only runs of length at
least 2 whose `bytes_wasted` exceeds `kWastageThreshold` are recorded. -/
def emitGroup (show_folded_constants : Bool) :
    List SymbolData → Option RepeatData
  | [] => none
  | p :: rest =>
    if 1 < (p :: rest).length then
      if kWastageThreshold <
          (mkRepeat show_folded_constants p (p :: rest)).bytes_wasted then
        some (mkRepeat show_folded_constants p (p :: rest))
      else none
    else none

/-- Helper realising the run structure of the loop at lines 171-200:
`acc` holds the already-scanned members of the current run (reversed),
`p` the run's first element against which the scan compares. -/
def runsAux (p : SymbolData) (acc : List SymbolData) :
    List SymbolData → List (List SymbolData)
  | [] => [p :: acc.reverse]
  | x :: xs =>
    if sameKey p x then runsAux p (x :: acc) xs
    else (p :: acc.reverse) :: runsAux x [] xs

/-- The maximal runs scanned by the loop at lines 171-200: each run
consists of its first element and the following elements with the same
name and size. -/
def runsBy : List SymbolData → List (List SymbolData)
  | [] => []
  | p :: rest => runsAux p [] rest

/-- The total preorder `std::sort(symbols, NameCompare)` establishes:
`a` may precede `b` exactly when `NameCompare b a` is false. -/
def nameLe (a b : SymbolData) : Prop := NameCompare b a = false

instance : DecidableRel nameLe := fun a b =>
  inferInstanceAs (Decidable (NameCompare b a = false))

/-- The total preorder `std::sort(symbols, SizeCompare)` establishes. -/
def sizeLe (a b : SymbolData) : Prop := SizeCompare b a = false

instance : DecidableRel sizeLe := fun a b =>
  inferInstanceAs (Decidable (SizeCompare b a = false))

/-- The total preorder `std::sort(repeats)` establishes through
`RepeatData::operator<` (lines 96-98), which compares `bytes_wasted`. -/
def repeatLe (a b : RepeatData) : Prop := a.bytes_wasted ≤ b.bytes_wasted

instance : DecidableRel repeatLe := fun a b =>
  inferInstanceAs (Decidable (a.bytes_wasted ≤ b.bytes_wasted))

/-- `std::sort(symbols.begin(), symbols.end(), NameCompare)` (line 170),
modelled as a sorted permutation. -/
def sortByName (symbols : List SymbolData) : List SymbolData :=
  symbols.insertionSort nameLe

/-- The run partition the duplicate scan sees: the name/size-sorted
collection cut into maximal same-name-same-size runs. -/
def groupsOf (symbols : List SymbolData) : List (List SymbolData) :=
  runsBy (sortByName symbols)

/-- The `duplicate_groups` output sequence of `DumpInterestingGlobals`
(lines 170-205): qualifying runs, sorted ascending by `bytes_wasted` and
reversed, so that the worst offenders come first. -/
def duplicate_groups (show_folded_constants : Bool)
    (symbols : List SymbolData) : List RepeatData :=
  (((groupsOf symbols).filterMap
      (emitGroup show_folded_constants)).insertionSort repeatLe).reverse

/-- The `large_symbols` output sequence of `DumpInterestingGlobals`
(lines 216-225): symbols sorted ascending by `SizeCompare` and reversed,
printed until the first one below `kBigSizeThreshold`. -/
def large_symbols (symbols : List SymbolData) : List SymbolData :=
  ((symbols.insertionSort sizeLe).reverse).takeWhile
    fun s => !decide (s.size < kBigSizeThreshold)

/-- The whole analyzer: both output sequences. -/
def analyze (show_folded_constants : Bool) (symbols : List SymbolData) :
    List RepeatData × List SymbolData :=
  (duplicate_groups show_folded_constants symbols, large_symbols symbols)

/-- Code units of the literal `--show_folded_constants` (line 270). -/
def flagString : List Nat :=
  [45, 45, 115, 104, 111, 119, 95, 102, 111, 108, 100, 101, 100, 95,
   99, 111, 110, 115, 116, 97, 110, 116, 115]

/-- The argument scan of `wmain` (lines 268-274): every element of
`argv` — `argv[0]`, the program name, included — is examined in order; an
argument equal to `--show_folded_constants` sets the flag and any other
argument becomes the filename.  Returns the final filename (`none`
models the null pointer) and the flag. -/
def parseArgs (argv : List (List Nat)) : Option (List Nat) × Bool :=
  argv.foldl
    (fun acc arg =>
      if arg = flagString then (acc.1, true) else (some arg, acc.2))
    (none, false)

/-- `Initialize` (lines 230-263), with the outcomes of the four external
DIA2 calls supplied as booleans: it succeeds only if all four succeed,
and on the first failure prints one diagnostic line.  Returns the
success flag and the number of diagnostic lines printed. -/
def Initialize (coCreateOk loadOk openOk globalScopeOk : Bool) :
    Bool × Nat :=
  if !coCreateOk then (false, 1)
  else if !loadOk then (false, 1)
  else if !openOk then (false, 1)
  else if !globalScopeOk then (false, 1)
  else (true, 0)

/-- What a run of `wmain` did, observably. -/
inductive MainStep where
  | usage
  | coInitFailed
  | initFailed
  | ran (filename : List Nat) (show_folded_constants : Bool)
deriving DecidableEq, Repr

/-- `wmain` (lines 265-300), with the outcomes of the external calls
supplied as booleans: returns the process exit code and what the run
did.  The `return false` after a `CoInitialize` failure is exit code 0,
as is falling off the end after a successful run. -/
def wmainModel (argv : List (List Nat)) (coInitOk initOk : Bool) :
    Int × MainStep :=
  match (parseArgs argv).1 with
  | none => (-1, .usage)
  | some filename =>
    if !coInitOk then (0, .coInitFailed)
    else if !initOk then (-1, .initFailed)
    else (0, .ran filename (parseArgs argv).2)

/-- Code units of the program name `ShowGlobals` as `argv[0]`. -/
def progName : List Nat :=
  [83, 104, 111, 119, 71, 108, 111, 98, 97, 108, 115]

/-! ### Order-theoretic facts about `StringCompare` -/

theorem sc_self : ∀ a : List Nat, StringCompare a a = .eq
  | [] => rfl
  | _ :: xs => by simp [StringCompare, sc_self xs]

theorem sc_eq_iff : ∀ (a b : List Nat), StringCompare a b = .eq ↔ a = b
  | [], [] => by simp [StringCompare]
  | [], _ :: _ => by simp [StringCompare]
  | _ :: _, [] => by simp [StringCompare]
  | x :: xs, y :: ys => by
    simp only [StringCompare]
    split_ifs with h1 h2
    · constructor
      · intro h; cases h
      · intro h
        injection h with hx _
        omega
    · constructor
      · intro h; cases h
      · intro h
        injection h with hx _
        omega
    · have hxy : x = y := by omega
      subst hxy
      rw [sc_eq_iff xs ys]
      simp

theorem sc_gt_iff : ∀ (a b : List Nat),
    StringCompare a b = .gt ↔ StringCompare b a = .lt
  | [], [] => by simp [StringCompare]
  | [], _ :: _ => by simp [StringCompare]
  | _ :: _, [] => by simp [StringCompare]
  | x :: xs, y :: ys => by
    rcases Nat.lt_trichotomy x y with h | h | h
    · simp [StringCompare, h, Nat.lt_asymm h]
    · subst h
      simpa [StringCompare] using sc_gt_iff xs ys
    · simp [StringCompare, h, Nat.lt_asymm h]

theorem sc_lt_trans : ∀ (a b c : List Nat),
    StringCompare a b = .lt → StringCompare b c = .lt →
      StringCompare a c = .lt := by
  intro a
  induction a with
  | nil =>
    intro b c hab hbc
    cases b with
    | nil => simp [StringCompare] at hab
    | cons y ys =>
      cases c with
      | nil => simp [StringCompare] at hbc
      | cons z zs => simp [StringCompare]
  | cons x xs ih =>
    intro b c hab hbc
    cases b with
    | nil => simp [StringCompare] at hab
    | cons y ys =>
      cases c with
      | nil => simp [StringCompare] at hbc
      | cons z zs =>
        rcases Nat.lt_trichotomy x y with h1 | h1 | h1
        · rcases Nat.lt_trichotomy y z with h2 | h2 | h2
          · simp [StringCompare, Nat.lt_trans h1 h2]
          · subst h2; simp [StringCompare, h1]
          · simp [StringCompare, Nat.lt_asymm h2, h2] at hbc
        · subst h1
          simp only [StringCompare, lt_irrefl, if_false] at hab
          rcases Nat.lt_trichotomy x z with h2 | h2 | h2
          · simp [StringCompare, h2]
          · subst h2
            simp only [StringCompare, lt_irrefl, if_false] at hbc ⊢
            exact ih ys zs hab hbc
          · simp [StringCompare, Nat.lt_asymm h2, h2] at hbc
        · simp [StringCompare, Nat.lt_asymm h1, h1] at hab

/-! ### The total preorders established by the three sorts -/

theorem NameCompare_eq_true_iff (a b : SymbolData) :
    NameCompare a b = true ↔
      StringCompare a.name b.name = .lt ∨
        (a.name = b.name ∧ a.size < b.size) := by
  unfold NameCompare
  cases hsc : StringCompare a.name b.name with
  | lt => simp [hsc]
  | eq =>
    have hn : a.name = b.name := (sc_eq_iff _ _).mp hsc
    simp [hn]
  | gt =>
    have hn : a.name ≠ b.name := by
      intro h
      rw [(sc_eq_iff a.name b.name).mpr h] at hsc
      cases hsc
    simp [hn]

theorem nameLe_iff (a b : SymbolData) :
    nameLe a b ↔
      StringCompare a.name b.name = .lt ∨
        (a.name = b.name ∧ a.size ≤ b.size) := by
  have key : nameLe a b ↔ ¬(NameCompare b a = true) := by
    unfold nameLe
    simp
  rw [key, NameCompare_eq_true_iff]
  push_neg
  constructor
  · rintro ⟨h1, h2⟩
    cases hsc : StringCompare a.name b.name with
    | lt => exact Or.inl rfl
    | eq =>
      have hn : a.name = b.name := (sc_eq_iff _ _).mp hsc
      exact Or.inr ⟨hn, by have := h2 hn.symm; omega⟩
    | gt => exact absurd ((sc_gt_iff _ _).mp hsc) h1
  · rintro (h | ⟨hn, hs⟩)
    · refine ⟨?_, ?_⟩
      · intro hba
        rw [(sc_gt_iff a.name b.name).mpr hba] at h
        cases h
      · intro hba
        rw [hba, sc_self] at h
        cases h
    · refine ⟨?_, fun _ => by omega⟩
      intro hba
      rw [hn, sc_self] at hba
      cases hba

theorem nameLe_total (a b : SymbolData) : nameLe a b ∨ nameLe b a := by
  cases hsc : StringCompare a.name b.name with
  | lt => exact Or.inl ((nameLe_iff a b).mpr (Or.inl hsc))
  | eq =>
    have hn : a.name = b.name := (sc_eq_iff _ _).mp hsc
    rcases Nat.le_total a.size b.size with h | h
    · exact Or.inl ((nameLe_iff a b).mpr (Or.inr ⟨hn, h⟩))
    · exact Or.inr ((nameLe_iff b a).mpr (Or.inr ⟨hn.symm, h⟩))
  | gt => exact Or.inr ((nameLe_iff b a).mpr (Or.inl ((sc_gt_iff _ _).mp hsc)))

theorem nameLe_trans {a b c : SymbolData}
    (h1 : nameLe a b) (h2 : nameLe b c) : nameLe a c := by
  rw [nameLe_iff] at h1 h2 ⊢
  rcases h1 with h1 | ⟨hn1, hs1⟩
  · rcases h2 with h2 | ⟨hn2, _⟩
    · exact Or.inl (sc_lt_trans _ _ _ h1 h2)
    · exact Or.inl (hn2 ▸ h1)
  · rcases h2 with h2 | ⟨hn2, hs2⟩
    · exact Or.inl (hn1.symm ▸ h2)
    · exact Or.inr ⟨hn1.trans hn2, le_trans hs1 hs2⟩

instance : IsTrans SymbolData nameLe := ⟨fun _ _ _ => nameLe_trans⟩

instance : IsTotal SymbolData nameLe := ⟨nameLe_total⟩

theorem sizeLe_iff (a b : SymbolData) :
    sizeLe a b ↔
      a.size < b.size ∨
        (a.size = b.size ∧ StringCompare b.name a.name ≠ .lt) := by
  unfold sizeLe SizeCompare
  split_ifs with h
  · simp [h, Nat.lt_irrefl]
  · have h' : a.size ≠ b.size := fun he => h he.symm
    simp [h']
    omega

theorem sizeLe_size_le {a b : SymbolData} (h : sizeLe a b) :
    a.size ≤ b.size := by
  rcases (sizeLe_iff a b).mp h with h | ⟨h, _⟩ <;> omega

theorem stringGe_trans {x y z : List Nat}
    (h1 : StringCompare y x ≠ .lt) (h2 : StringCompare z y ≠ .lt) :
    StringCompare z x ≠ .lt := by
  intro h
  cases hyx : StringCompare y x with
  | lt => exact h1 hyx
  | eq =>
    have : y = x := (sc_eq_iff _ _).mp hyx
    exact h2 (this ▸ h)
  | gt =>
    exact h2 (sc_lt_trans _ _ _ h ((sc_gt_iff _ _).mp hyx))

theorem sizeLe_total (a b : SymbolData) : sizeLe a b ∨ sizeLe b a := by
  rcases Nat.lt_trichotomy a.size b.size with h | h | h
  · exact Or.inl ((sizeLe_iff a b).mpr (Or.inl h))
  · cases hsc : StringCompare a.name b.name with
    | lt =>
      refine Or.inl ((sizeLe_iff a b).mpr (Or.inr ⟨h, ?_⟩))
      rw [(sc_gt_iff b.name a.name).mpr hsc]
      simp
    | eq =>
      refine Or.inl ((sizeLe_iff a b).mpr (Or.inr ⟨h, ?_⟩))
      rw [(sc_eq_iff _ _).mp hsc, sc_self]
      simp
    | gt =>
      refine Or.inr ((sizeLe_iff b a).mpr (Or.inr ⟨h.symm, ?_⟩))
      simp [hsc]
  · exact Or.inr ((sizeLe_iff b a).mpr (Or.inl h))

theorem sizeLe_trans {a b c : SymbolData}
    (h1 : sizeLe a b) (h2 : sizeLe b c) : sizeLe a c := by
  rw [sizeLe_iff] at h1 h2 ⊢
  rcases h1 with h1 | ⟨he1, hn1⟩
  · rcases h2 with h2 | ⟨he2, _⟩
    · exact Or.inl (Nat.lt_trans h1 h2)
    · exact Or.inl (he2 ▸ h1)
  · rcases h2 with h2 | ⟨he2, hn2⟩
    · exact Or.inl (he1 ▸ h2)
    · exact Or.inr ⟨he1.trans he2, stringGe_trans hn1 hn2⟩

instance : IsTrans SymbolData sizeLe := ⟨fun _ _ _ => sizeLe_trans⟩

instance : IsTotal SymbolData sizeLe := ⟨sizeLe_total⟩

instance : IsTrans RepeatData repeatLe := ⟨fun _ _ _ => Nat.le_trans⟩

instance : IsTotal RepeatData repeatLe :=
  ⟨fun a b => Nat.le_total a.bytes_wasted b.bytes_wasted⟩

/-! ### Facts about `sameKey` -/

theorem sameKey_iff (p s : SymbolData) :
    sameKey p s = true ↔ p.size = s.size ∧ p.name = s.name := by
  simp [sameKey, sc_eq_iff]

theorem sameKey_refl (p : SymbolData) : sameKey p p = true := by
  simp [sameKey_iff]

theorem sameKey_symm {p s : SymbolData} (h : sameKey p s = true) :
    sameKey s p = true := by
  rw [sameKey_iff] at h ⊢
  exact ⟨h.1.symm, h.2.symm⟩

theorem sameKey_trans {p s t : SymbolData}
    (h1 : sameKey p s = true) (h2 : sameKey s t = true) :
    sameKey p t = true := by
  rw [sameKey_iff] at h1 h2 ⊢
  exact ⟨h1.1.trans h2.1, h1.2.trans h2.2⟩

theorem sameKey_of_nameLe_both {a b : SymbolData}
    (h1 : nameLe a b) (h2 : nameLe b a) : sameKey a b = true := by
  rw [nameLe_iff] at h1 h2
  rw [sameKey_iff]
  rcases h1 with h1 | ⟨hn1, hs1⟩
  · rcases h2 with h2 | ⟨hn2, _⟩
    · have := (sc_gt_iff a.name b.name).mpr h2
      rw [this] at h1
      cases h1
    · rw [hn2] at h1
      rw [sc_self] at h1
      cases h1
  · rcases h2 with h2 | ⟨_, hs2⟩
    · rw [hn1] at h2
      rw [sc_self] at h2
      cases h2
    · exact ⟨le_antisymm hs1 hs2, hn1⟩

theorem nameLe_of_sameKey {a b : SymbolData} (h : sameKey a b = true) :
    nameLe a b := by
  rw [sameKey_iff] at h
  exact (nameLe_iff a b).mpr (Or.inr ⟨h.2, le_of_eq h.1⟩)

theorem sameKey_sandwich {p x y : SymbolData}
    (h1 : nameLe p x) (h2 : nameLe x y) (hk : sameKey p y = true) :
    sameKey p x = true :=
  sameKey_of_nameLe_both h1
    (nameLe_trans h2 (nameLe_of_sameKey (sameKey_symm hk)))

/-! ### Structure of the run partition -/

theorem runsAux_eq (l : List SymbolData) :
    ∀ (p : SymbolData) (acc : List SymbolData),
      runsAux p acc l =
        (p :: (acc.reverse ++ l.takeWhile (sameKey p))) ::
          runsBy (l.dropWhile (sameKey p)) := by
  induction l with
  | nil =>
    intro p acc
    simp [runsAux, runsBy]
  | cons x xs ih =>
    intro p acc
    by_cases h : sameKey p x = true
    · simp only [runsAux, if_pos h, ih p (x :: acc),
        List.takeWhile_cons_of_pos h, List.dropWhile_cons_of_pos h]
      simp
    · simp only [runsAux, if_neg h, List.takeWhile_cons_of_neg h,
        List.dropWhile_cons_of_neg h]
      simp [runsBy]

theorem runsBy_cons (p : SymbolData) (rest : List SymbolData) :
    runsBy (p :: rest) =
      (p :: rest.takeWhile (sameKey p)) ::
        runsBy (rest.dropWhile (sameKey p)) := by
  simpa using runsAux_eq rest p []

theorem mem_of_mem_runsBy :
    ∀ (l g : List SymbolData), g ∈ runsBy l → ∀ x ∈ g, x ∈ l
  | [], g => by simp [runsBy]
  | p :: rest, g => by
    rw [runsBy_cons]
    intro hg x hx
    rcases List.mem_cons.mp hg with hg | hg
    · subst hg
      rcases List.mem_cons.mp hx with hx | hx
      · exact hx ▸ List.mem_cons_self _ _
      · exact List.mem_cons_of_mem _ ((List.takeWhile_sublist _).subset hx)
    · have hx' := mem_of_mem_runsBy (rest.dropWhile (sameKey p)) g hg x hx
      exact List.mem_cons_of_mem _ ((List.dropWhile_sublist _).subset hx')
termination_by l _ => l.length
decreasing_by
  simp only [List.length_cons]
  exact Nat.lt_succ_of_le (List.dropWhile_sublist (sameKey p)).length_le

theorem takeWhile_sameKey_eq_filter (p : SymbolData) :
    ∀ (l : List SymbolData), (p :: l).Pairwise nameLe →
      l.takeWhile (sameKey p) = l.filter (sameKey p) := by
  intro l
  induction l with
  | nil => intro _; rfl
  | cons x xs ih =>
    intro hp
    have hp' : (p :: xs).Pairwise nameLe :=
      hp.sublist ((List.sublist_cons_self x xs).cons₂ p)
    by_cases h : sameKey p x = true
    · rw [List.takeWhile_cons_of_pos h, List.filter_cons_of_pos h, ih hp']
    · rw [List.takeWhile_cons_of_neg h, List.filter_cons_of_neg h]
      symm
      rw [List.filter_eq_nil_iff]
      intro y hy hky
      have hpx : nameLe p x :=
        List.rel_of_pairwise_cons hp (List.mem_cons_self x xs)
      have hxy : nameLe x y := List.rel_of_pairwise_cons hp.of_cons hy
      exact h (sameKey_sandwich hpx hxy hky)

theorem dropWhile_sameKey_eq_filter (p : SymbolData) :
    ∀ (l : List SymbolData), (p :: l).Pairwise nameLe →
      l.dropWhile (sameKey p) = l.filter (fun s => !sameKey p s) := by
  intro l
  induction l with
  | nil => intro _; rfl
  | cons x xs ih =>
    intro hp
    have hp' : (p :: xs).Pairwise nameLe :=
      hp.sublist ((List.sublist_cons_self x xs).cons₂ p)
    by_cases h : sameKey p x = true
    · rw [List.dropWhile_cons_of_pos h, ih hp',
        List.filter_cons_of_neg (by simp [h])]
    · rw [List.dropWhile_cons_of_neg h,
        List.filter_cons_of_pos (by simp [Bool.not_eq_true] at h ⊢; exact h)]
      congr 1
      symm
      rw [List.filter_eq_self]
      intro y hy
      have hpx : nameLe p x :=
        List.rel_of_pairwise_cons hp (List.mem_cons_self x xs)
      have hxy : nameLe x y := List.rel_of_pairwise_cons hp.of_cons hy
      have : ¬ sameKey p y = true := fun hk => h (sameKey_sandwich hpx hxy hk)
      simp [Bool.not_eq_true] at this ⊢
      exact this

theorem runsBy_pairwise_sameKey :
    ∀ (l : List SymbolData), l.Pairwise nameLe →
      ∀ g ∈ runsBy l, ∀ a ∈ g, ∀ b ∈ g, sameKey a b = true
  | [], _ => by simp [runsBy]
  | p :: rest, hp => by
    rw [runsBy_cons]
    intro g hg a ha b hb
    rcases List.mem_cons.mp hg with hg | hg
    · subst hg
      have key : ∀ x ∈ p :: rest.takeWhile (sameKey p), sameKey p x = true := by
        intro x hx
        rcases List.mem_cons.mp hx with hx | hx
        · exact hx ▸ sameKey_refl p
        · exact List.mem_takeWhile_imp hx
      exact sameKey_trans (sameKey_symm (key a ha)) (key b hb)
    · have hp' : (rest.dropWhile (sameKey p)).Pairwise nameLe :=
        hp.of_cons.sublist (List.dropWhile_sublist _)
      exact runsBy_pairwise_sameKey (rest.dropWhile (sameKey p)) hp' g hg a ha b hb
termination_by l _ => l.length
decreasing_by
  simp only [List.length_cons]
  exact Nat.lt_succ_of_le (List.dropWhile_sublist (sameKey p)).length_le

theorem mem_runsBy_of_sameKey :
    ∀ (l : List SymbolData), l.Pairwise nameLe →
      ∀ (a b : SymbolData), a ∈ l → b ∈ l → sameKey a b = true →
        ∃ g, g ∈ runsBy l ∧ a ∈ g ∧ b ∈ g
  | [], _ => by simp
  | p :: rest, hp => by
    intro a b ha hb hab
    rw [runsBy_cons]
    by_cases hpa : sameKey p a = true
    · have hpb : sameKey p b = true := sameKey_trans hpa hab
      have key_mem : ∀ x ∈ p :: rest, sameKey p x = true →
          x ∈ p :: rest.takeWhile (sameKey p) := by
        intro x hx hk
        rcases List.mem_cons.mp hx with hx | hx
        · exact hx ▸ List.mem_cons_self _ _
        · refine List.mem_cons_of_mem _ ?_
          rw [takeWhile_sameKey_eq_filter p rest hp]
          exact List.mem_filter.mpr ⟨hx, hk⟩
      exact ⟨p :: rest.takeWhile (sameKey p), List.mem_cons_self _ _,
        key_mem a ha hpa, key_mem b hb hpb⟩
    · have hpb : ¬ sameKey p b = true := fun h =>
        hpa (sameKey_trans h (sameKey_symm hab))
      have ha' : a ∈ rest := by
        rcases List.mem_cons.mp ha with h | h
        · exact absurd (h ▸ sameKey_refl p) hpa
        · exact h
      have hb' : b ∈ rest := by
        rcases List.mem_cons.mp hb with h | h
        · exact absurd (h ▸ sameKey_refl p) hpb
        · exact h
      have hdrop := dropWhile_sameKey_eq_filter p rest hp
      have ha'' : a ∈ rest.dropWhile (sameKey p) := by
        rw [hdrop]
        exact List.mem_filter.mpr ⟨ha', by simp [Bool.not_eq_true] at hpa ⊢; exact hpa⟩
      have hb'' : b ∈ rest.dropWhile (sameKey p) := by
        rw [hdrop]
        exact List.mem_filter.mpr ⟨hb', by simp [Bool.not_eq_true] at hpb ⊢; exact hpb⟩
      have hp' : (rest.dropWhile (sameKey p)).Pairwise nameLe :=
        hp.of_cons.sublist (List.dropWhile_sublist _)
      obtain ⟨g, hg, hag, hbg⟩ :=
        mem_runsBy_of_sameKey (rest.dropWhile (sameKey p)) hp' a b ha'' hb'' hab
      exact ⟨g, List.mem_cons_of_mem _ hg, hag, hbg⟩
termination_by l _ => l.length
decreasing_by
  simp only [List.length_cons]
  exact Nat.lt_succ_of_le (List.dropWhile_sublist (sameKey p)).length_le

/-! ### Unfolding the analyzer's outputs -/

theorem emitGroup_eq_some {sf : Bool} {run : List SymbolData} {r : RepeatData}
    (h : emitGroup sf run = some r) :
    ∃ p rest, run = p :: rest ∧ rest ≠ [] ∧
      r = mkRepeat sf p (p :: rest) ∧
      kWastageThreshold < r.bytes_wasted := by
  cases run with
  | nil => simp [emitGroup] at h
  | cons p rest =>
    simp only [emitGroup] at h
    split_ifs at h with h1 h2
    refine ⟨p, rest, rfl, ?_, (Option.some.inj h).symm, ?_⟩
    · intro hnil
      subst hnil
      simp at h1
    · rw [← Option.some.inj h]
      exact h2

theorem mem_duplicate_groups {sf : Bool} {syms : List SymbolData}
    {r : RepeatData} :
    r ∈ duplicate_groups sf syms ↔
      ∃ run, run ∈ groupsOf syms ∧ emitGroup sf run = some r := by
  unfold duplicate_groups
  rw [List.mem_reverse, List.mem_insertionSort, List.mem_filterMap]

theorem sortByName_pairwise (syms : List SymbolData) :
    (sortByName syms).Pairwise nameLe :=
  List.sorted_insertionSort nameLe syms

/-! ### Arithmetic of the per-group counters -/

theorem foldScanCount_le (p : SymbolData) (run : List SymbolData) :
    foldScanCount p run ≤ run.length :=
  List.countP_le_length _

theorem foldScanCount_zero {p : SymbolData} (h : p.offset = 0)
    (run : List SymbolData) : foldScanCount p run = 0 := by
  unfold foldScanCount
  rw [List.countP_eq_zero]
  intro s _
  simp [h]

theorem foldScanCount_cons_pos {p : SymbolData} (h : p.offset ≠ 0)
    (rest : List SymbolData) :
    foldScanCount p (p :: rest) =
      1 + rest.countP
        (fun s => decide (s.offset = p.offset) && decide (s.offset ≠ 0)) := by
  unfold foldScanCount
  rw [List.countP_cons_of_pos _ _ (by simp [h]), Nat.add_comm]
  congr 1
  apply List.countP_congr
  intro s _
  simp only [Bool.and_eq_true, decide_eq_true_eq]
  constructor
  · rintro ⟨hse, _⟩
    exact ⟨hse, hse ▸ h⟩
  · rintro ⟨hse, _⟩
    exact ⟨hse, h⟩

theorem excessCount_true (p : SymbolData) (rest : List SymbolData) :
    excessCount true p (p :: rest) = rest.length := by
  simp [excessCount]

theorem excessCount_false_zero {p : SymbolData} (h : p.offset = 0)
    (rest : List SymbolData) :
    excessCount false p (p :: rest) = rest.length + 1 := by
  simp [excessCount, foldingCount, foldScanCount_zero h]

theorem excessCount_false_pos {p : SymbolData} (h : p.offset ≠ 0)
    (rest : List SymbolData) :
    excessCount false p (p :: rest) =
      rest.length - rest.countP
        (fun s => decide (s.offset = p.offset) && decide (s.offset ≠ 0)) := by
  simp [excessCount, foldingCount, foldScanCount_cons_pos h rest]

/-! ### The sorted-descending prefix is a filter -/

theorem desc_takeWhile_eq_filter :
    ∀ (l : List SymbolData), l.Pairwise (fun a b => sizeLe b a) →
      l.takeWhile (fun s => !decide (s.size < kBigSizeThreshold)) =
        l.filter (fun s => !decide (s.size < kBigSizeThreshold)) := by
  intro l
  induction l with
  | nil => intro _; rfl
  | cons x xs ih =>
    intro hp
    rw [List.takeWhile_cons, List.filter_cons]
    by_cases h : (!decide (x.size < kBigSizeThreshold)) = true
    · simp only [h, if_true]
      rw [ih hp.of_cons]
    · simp only [h, Bool.false_eq_true, if_false]
      symm
      rw [List.filter_eq_nil_iff]
      intro y hy hyP
      have hxy : sizeLe y x := List.rel_of_pairwise_cons hp hy
      have hsz := sizeLe_size_le hxy
      simp at h hyP
      omega

theorem large_symbols_perm_filter (l : List SymbolData) :
    (large_symbols l).Perm
      (l.filter (fun s => !decide (s.size < kBigSizeThreshold))) := by
  unfold large_symbols
  rw [desc_takeWhile_eq_filter _
    (List.pairwise_reverse.mpr (List.sorted_insertionSort sizeLe l))]
  exact List.Perm.filter _
    ((List.reverse_perm _).trans (List.perm_insertionSort sizeLe l))

/-! ### The claims -/

/-- Claim C1, counterexample.  On two records with equal name `"a"`, equal
size 200 and offset 0 for both, no instance can match a non-zero first
offset and a zero offset never counts as a folding match, so the claim
predicts identical `bytes_wasted` under both flag settings, namely
`repeat_count * size = 1 * 200`.  The code instead reports 400 when
`show_folded_constants = false`, because `folding_count` underflows
to `-1`. -/
theorem claim_C1_counterexample :
    duplicate_groups false [⟨200, 1, 0, [97]⟩, ⟨200, 1, 0, [97]⟩] =
        [⟨1, 400, -1, [97]⟩] ∧
      duplicate_groups true [⟨200, 1, 0, [97]⟩, ⟨200, 1, 0, [97]⟩] =
        [⟨1, 200, -1, [97]⟩] ∧
      (400 : Nat) ≠ 1 * 200 := by
  decide

/-- Claim C1, amended.  For every maximal group `p :: rest` scanned by the
duplicate loop: with `show_folded_constants = true` all excess instances
are counted; with `show_folded_constants = false` and a non-zero first
offset, exactly the excess instances whose offset matches the first
element's (non-zero) offset are excluded, and an instance whose offset is
zero never counts as a folding match; but with a zero first offset and
`show_folded_constants = false`, `bytes_wasted` counts
`repeat_count + 1` instances — one more than the total excess. -/
theorem claim_C1_amended (p : SymbolData) (rest : List SymbolData) :
    (mkRepeat true p (p :: rest)).bytes_wasted =
        rest.length * p.size % U64 ∧
      (p.offset ≠ 0 →
        (mkRepeat false p (p :: rest)).bytes_wasted =
          (rest.length - rest.countP
              (fun s => decide (s.offset = p.offset) && decide (s.offset ≠ 0)))
            * p.size % U64) ∧
      (p.offset = 0 →
        (mkRepeat false p (p :: rest)).bytes_wasted =
          (rest.length + 1) * p.size % U64) := by
  refine ⟨?_, ?_, ?_⟩
  · show excessCount true p (p :: rest) * p.size % U64 = _
    rw [excessCount_true]
  · intro h
    show excessCount false p (p :: rest) * p.size % U64 = _
    rw [excessCount_false_pos h]
  · intro h
    show excessCount false p (p :: rest) * p.size % U64 = _
    rw [excessCount_false_zero h]

/-- Witness for C1 amended, at the zero-offset group of the
counterexample. -/
theorem claim_C1_amended_witness :
    (mkRepeat false ⟨200, 1, 0, [97]⟩
        [⟨200, 1, 0, [97]⟩, ⟨200, 1, 0, [97]⟩]).bytes_wasted =
      (([⟨200, 1, 0, [97]⟩] : List SymbolData).length + 1) *
        (⟨200, 1, 0, [97]⟩ : SymbolData).size % U64 :=
  (claim_C1_amended ⟨200, 1, 0, [97]⟩ [⟨200, 1, 0, [97]⟩]).2.2 rfl

/-- Claim C2.  Every emitted `DuplicateGroup` satisfies
`bytes_wasted > kWastageThreshold` (= 100), and `duplicate_groups` is
sorted descending by `bytes_wasted`. -/
theorem claim_C2 (sf : Bool) (syms : List SymbolData) :
    (∀ r ∈ duplicate_groups sf syms, kWastageThreshold < r.bytes_wasted) ∧
      (duplicate_groups sf syms).Pairwise
        (fun a b => b.bytes_wasted ≤ a.bytes_wasted) := by
  constructor
  · intro r hr
    obtain ⟨run, _, hemit⟩ := mem_duplicate_groups.mp hr
    obtain ⟨p, rest, _, _, _, hlt⟩ := emitGroup_eq_some hemit
    exact hlt
  · unfold duplicate_groups
    rw [List.pairwise_reverse]
    exact (List.sorted_insertionSort repeatLe _).imp fun h => h

/-- Witness for C2: the group emitted for two same-name same-size symbols
at distinct non-zero offsets. -/
theorem claim_C2_witness :
    kWastageThreshold < (⟨1, 200, 0, [100]⟩ : RepeatData).bytes_wasted :=
  (claim_C2 false [⟨200, 1, 16, [100]⟩, ⟨200, 1, 32, [100]⟩]).1
    ⟨1, 200, 0, [100]⟩ (by decide)

/-- Claim C3, counterexample.  Two distinct symbols of equal size 600 both
appear in `large_symbols`, so the output is not sorted *strictly*
descending by size. -/
theorem claim_C3_counterexample :
    ¬ (large_symbols [⟨600, 1, 0, [97]⟩, ⟨600, 2, 0, [98]⟩]).Pairwise
        (fun a b => b.size < a.size) := by
  intro h
  have heval : large_symbols [⟨600, 1, 0, [97]⟩, ⟨600, 2, 0, [98]⟩] =
      [⟨600, 2, 0, [98]⟩, ⟨600, 1, 0, [97]⟩] := by decide
  rw [heval] at h
  exact absurd (List.rel_of_pairwise_cons h (List.mem_cons_self _ _))
    (by decide)

/-- Claim C3, amended.  `large_symbols` is sorted descending (not
strictly: equal sizes may repeat, ordered by name) and every entry has
size at least `kBigSizeThreshold` (= 500); no symbol below the threshold
appears. -/
theorem claim_C3_amended (syms : List SymbolData) :
    (large_symbols syms).Pairwise (fun a b => b.size ≤ a.size) ∧
      ∀ s ∈ large_symbols syms, kBigSizeThreshold ≤ s.size := by
  constructor
  · unfold large_symbols
    have hrev : (syms.insertionSort sizeLe).reverse.Pairwise
        (fun a b : SymbolData => sizeLe b a) :=
      List.pairwise_reverse.mpr (List.sorted_insertionSort sizeLe syms)
    exact ((hrev.sublist (List.takeWhile_sublist _)).imp
      fun h => sizeLe_size_le h)
  · intro s hs
    have hp := List.mem_takeWhile_imp hs
    simp [kBigSizeThreshold] at hp ⊢
    omega

/-- Witness for C3 amended, at a single symbol of size 600. -/
theorem claim_C3_amended_witness :
    kBigSizeThreshold ≤ (⟨600, 1, 0, [101]⟩ : SymbolData).size :=
  (claim_C3_amended [⟨600, 1, 0, [101]⟩]).2 ⟨600, 1, 0, [101]⟩ (by decide)

/-- Claim C4.  Two symbols lie in a common group of the run partition
exactly when both belong to the collection and their name and size agree,
and no emitted duplicate group comes from a single-symbol run (its
`repeat_count`, the number of excess instances, is at least 1). -/
theorem claim_C4 (sf : Bool) (syms : List SymbolData) :
    (∀ a b : SymbolData,
        (∃ g, g ∈ groupsOf syms ∧ a ∈ g ∧ b ∈ g) ↔
          a ∈ syms ∧ b ∈ syms ∧ a.name = b.name ∧ a.size = b.size) ∧
      ∀ r ∈ duplicate_groups sf syms, 1 ≤ r.repeat_count := by
  constructor
  · intro a b
    constructor
    · rintro ⟨g, hg, hag, hbg⟩
      have hperm := List.perm_insertionSort nameLe syms
      have ha : a ∈ syms :=
        hperm.mem_iff.mp (mem_of_mem_runsBy _ g hg a hag)
      have hb : b ∈ syms :=
        hperm.mem_iff.mp (mem_of_mem_runsBy _ g hg b hbg)
      have hkey := runsBy_pairwise_sameKey _ (sortByName_pairwise syms)
        g hg a hag b hbg
      rw [sameKey_iff] at hkey
      exact ⟨ha, hb, hkey.2, hkey.1⟩
    · rintro ⟨ha, hb, hn, hs⟩
      have hperm := List.perm_insertionSort nameLe syms
      exact mem_runsBy_of_sameKey _ (sortByName_pairwise syms) a b
        (hperm.mem_iff.mpr ha) (hperm.mem_iff.mpr hb)
        ((sameKey_iff a b).mpr ⟨hs, hn⟩)
  · intro r hr
    obtain ⟨run, _, hemit⟩ := mem_duplicate_groups.mp hr
    obtain ⟨p, rest, _, hne, hrEq, _⟩ := emitGroup_eq_some hemit
    subst hrEq
    show 1 ≤ (p :: rest).length - 1
    have := List.length_pos.mpr hne
    simp [List.length_cons]
    omega

/-- Witness for C4: two equal-name equal-size symbols share a group, and
the emitted group for them has at least one excess instance. -/
theorem claim_C4_witness :
    (∃ g, g ∈ groupsOf [⟨200, 1, 0, [102]⟩, ⟨200, 2, 4, [102]⟩] ∧
        (⟨200, 1, 0, [102]⟩ : SymbolData) ∈ g ∧
        (⟨200, 2, 4, [102]⟩ : SymbolData) ∈ g) ∧
      1 ≤ (⟨1, 400, -1, [102]⟩ : RepeatData).repeat_count :=
  ⟨((claim_C4 false [⟨200, 1, 0, [102]⟩, ⟨200, 2, 4, [102]⟩]).1 _ _).mpr
      (by decide),
    (claim_C4 false [⟨200, 1, 0, [102]⟩, ⟨200, 2, 4, [102]⟩]).2
      ⟨1, 400, -1, [102]⟩ (by decide)⟩

/-- Claim C5.  Every emitted `DuplicateGroup` satisfies
`folding_count ≤ repeat_count`. -/
theorem claim_C5 (sf : Bool) (syms : List SymbolData) :
    ∀ r ∈ duplicate_groups sf syms,
      r.folding_count ≤ (r.repeat_count : Int) := by
  intro r hr
  obtain ⟨run, _, hemit⟩ := mem_duplicate_groups.mp hr
  obtain ⟨p, rest, _, _, hrEq, _⟩ := emitGroup_eq_some hemit
  subst hrEq
  show foldingCount p (p :: rest) ≤ (((p :: rest).length - 1 : Nat) : Int)
  have hle := foldScanCount_le p (p :: rest)
  have hlen : (p :: rest).length = rest.length + 1 := List.length_cons p rest
  unfold foldingCount
  omega

/-- Witness for C5, at the duplicate group of two same-name symbols. -/
theorem claim_C5_witness :
    (⟨1, 200, 0, [100]⟩ : RepeatData).folding_count ≤
      ((⟨1, 200, 0, [100]⟩ : RepeatData).repeat_count : Int) :=
  claim_C5 false [⟨200, 1, 16, [100]⟩, ⟨200, 1, 32, [100]⟩]
    ⟨1, 200, 0, [100]⟩ (by decide)

/-- Claim C6.  Three records named `"k"` (code unit 107) of size 64 at the
distinct non-zero offsets 0x10, 0x20, 0x30 produce exactly one duplicate
group with `repeat_count = 2`, `folding_count = 0` and
`bytes_wasted = 128`, under either flag setting, and 128 exceeds the
default wastage threshold. -/
theorem claim_C6 :
    duplicate_groups false
        [⟨64, 1, 16, [107]⟩, ⟨64, 1, 32, [107]⟩, ⟨64, 1, 48, [107]⟩] =
        [⟨2, 128, 0, [107]⟩] ∧
      duplicate_groups true
        [⟨64, 1, 16, [107]⟩, ⟨64, 1, 32, [107]⟩, ⟨64, 1, 48, [107]⟩] =
        [⟨2, 128, 0, [107]⟩] ∧
      kWastageThreshold < 128 := by
  decide

/-- Claim C7.  On the empty collection the analyzer returns two empty
sequences; being a total function over its input, it signals no error. -/
theorem claim_C7 : ∀ sf : Bool, analyze sf [] = ([], []) := by
  intro sf
  cases sf <;> rfl

/-- Claim C8, evaluation at the failing input.  Invoked with no user
arguments (`argv` is just the program name), the argument loop — which
starts at index 0 — takes `argv[0]` as the filename, so the usage branch
is not reached, contradicting the claim's first half; the initialization
half does behave as claimed: a failing `Initialize` prints one diagnostic
and `wmain` exits with -1. -/
theorem claim_C8_eval :
    parseArgs [progName] = (some progName, false) ∧
      (∀ c i : Bool, (wmainModel [progName] c i).2 ≠ MainStep.usage) ∧
      Initialize true false true true = (false, 1) ∧
      wmainModel [progName] true false = (-1, MainStep.initFailed) := by
  decide

/-- Claim C9, counterexample.  The same multiset of three symbols — equal
name and size, offsets 0x10, 0x10, 0x20 — presented in two different
orders yields duplicate groups that are not even permutations of each
other: folding is measured against whichever tied element the stable
name sort puts first, so `folding_count` and `bytes_wasted` change with
the input order. -/
theorem claim_C9_counterexample :
    ([⟨200, 1, 16, [97]⟩, ⟨200, 1, 16, [97]⟩, ⟨200, 1, 32, [97]⟩] :
        List SymbolData).Perm
        [⟨200, 1, 32, [97]⟩, ⟨200, 1, 16, [97]⟩, ⟨200, 1, 16, [97]⟩] ∧
      ¬ (duplicate_groups false
            [⟨200, 1, 16, [97]⟩, ⟨200, 1, 16, [97]⟩, ⟨200, 1, 32, [97]⟩]).Perm
          (duplicate_groups false
            [⟨200, 1, 32, [97]⟩, ⟨200, 1, 16, [97]⟩, ⟨200, 1, 16, [97]⟩]) := by
  decide

/-- Claim C9, amended.  The analyzer is a function, so re-running it on
the identical input sequence reproduces its outputs; under permutation of
the input, `large_symbols` is preserved up to reordering of equal sort
keys, while `duplicate_groups` may change beyond reordering (see the
counterexample), because `folding_count` is measured against the
first-sorted element's offset. -/
theorem claim_C9_amended {l1 l2 : List SymbolData} (h : l1.Perm l2) :
    (large_symbols l1).Perm (large_symbols l2) :=
  (large_symbols_perm_filter l1).trans
    ((h.filter _).trans (large_symbols_perm_filter l2).symm)

/-- Witness for C9 amended: swapping a two-element collection permutes
`large_symbols`. -/
theorem claim_C9_amended_witness :
    (large_symbols [⟨600, 1, 0, [97]⟩, ⟨8, 1, 0, [98]⟩]).Perm
      (large_symbols [⟨8, 1, 0, [98]⟩, ⟨600, 1, 0, [97]⟩]) :=
  claim_C9_amended (by decide)

/-- Claim C10.  For every scanned group, the emitted `folding_count` is
`-1` exactly when the group's first element (after the name-then-size
sort) has offset zero, and is non-negative otherwise; and in the zero
case with `show_folded_constants = false` the excess count used for
`bytes_wasted` equals `repeat_count + 1`. -/
theorem claim_C10 (sf : Bool) (p : SymbolData) (rest : List SymbolData) :
    ((mkRepeat sf p (p :: rest)).folding_count = -1 ↔ p.offset = 0) ∧
      (p.offset ≠ 0 → 0 ≤ (mkRepeat sf p (p :: rest)).folding_count) ∧
      (p.offset = 0 →
        excessCount false p (p :: rest) =
          (mkRepeat sf p (p :: rest)).repeat_count + 1) := by
  have hfold : (mkRepeat sf p (p :: rest)).folding_count =
      (foldScanCount p (p :: rest) : Int) - 1 := rfl
  refine ⟨?_, ?_, ?_⟩
  · rw [hfold]
    constructor
    · intro h
      by_contra hne
      have := foldScanCount_cons_pos hne rest
      omega
    · intro h0
      rw [foldScanCount_zero h0]
      rfl
  · intro h
    rw [hfold, foldScanCount_cons_pos h rest]
    omega
  · intro h0
    rw [excessCount_false_zero h0]
    rfl

/-- Witness for C10, at a two-element zero-offset group. -/
theorem claim_C10_witness :
    ((mkRepeat false ⟨8, 1, 0, [99]⟩
        [⟨8, 1, 0, [99]⟩, ⟨8, 1, 0, [99]⟩]).folding_count = -1) ∧
      excessCount false ⟨8, 1, 0, [99]⟩ [⟨8, 1, 0, [99]⟩, ⟨8, 1, 0, [99]⟩] =
        (mkRepeat false ⟨8, 1, 0, [99]⟩
          [⟨8, 1, 0, [99]⟩, ⟨8, 1, 0, [99]⟩]).repeat_count + 1 := by
  have h := claim_C10 false ⟨8, 1, 0, [99]⟩ [⟨8, 1, 0, [99]⟩]
  exact ⟨h.1.mpr rfl, h.2.2 rfl⟩

end ShowGlobals
